import Mathlib

/-!
Shallow embedding of the cyclopeptide-sequencing notebook
(`antibiotics_sequence_from_mass_spectrumUntitled-1.ipynb`).

The Python code works with
* a residue-mass table (`mass_table`), a dict from one-letter amino-acid
  symbols to integer masses — modelled as `List (Char × Nat)`; dict keys are
  unique, which appears as a `Nodup` hypothesis on `t.map Prod.fst` where a
  statement needs it;
* peptides, Python strings — modelled as `List Char`;
* spectra, Python lists of ints — modelled as `List Nat`.

Python's `sorted` on an integer list is its unique ascending stable
reordering; on `Nat` any correct sort produces that exact list, so it is
modelled by Mathlib's structurally recursive `List.insertionSort`.
Python runtime errors (`IndexError` from list indexing, `ValueError` from
`max([])`) are modelled by `Option`/an explicit error type.
-/

namespace AntibioticsSeq

/-- Python `sorted(l)` for a list of naturals: ascending reorder. -/
def pysorted (l : List Nat) : List Nat := l.insertionSort (· ≤ ·)

/-- Python `l.sort(reverse=True)` for a list of naturals: descending reorder. -/
def sortDesc (l : List Nat) : List Nat := l.insertionSort (fun a b => b ≤ a)

/-- Python list indexing `l[i]`, including negative-index semantics;
`none` is an `IndexError`. -/
def pyGet (l : List Nat) (i : Int) : Option Nat :=
  if 0 ≤ i then l.get? i.toNat
  else if (-i).toNat ≤ l.length then l.get? (l.length - (-i).toNat) else none

/-- Python `max(l)`; `none` is the `ValueError` raised on an empty list. -/
def pymax (l : List Nat) : Option Nat :=
  match l with
  | [] => none
  | x :: xs => some (xs.foldl max x)

/-- Total version of `pymax` (defaults to 0 on the empty list). -/
def pyMaxD (l : List Nat) : Nat := l.foldl max 0

/-- Dict lookup `mass_table[symbol]`: value of the first (only) pair whose
key is `c`. `none` is a `KeyError`. -/
def dictGet (t : List (Char × Nat)) (c : Char) : Option Nat :=
  (t.find? (fun sm => sm.1 == c)).map Prod.snd

/-- `int(mass_table[symbol])` as a total function; every statement below that
depends on it is conditioned on the symbol being a key of the table, where
the default is never used. -/
def residue_mass (t : List (Char × Nat)) (c : Char) : Nat :=
  (dictGet t c).getD 0

/-- The `prefix_mass` accumulation loop shared by `linear_spectrum` and
`cyclic_spectrum`:
`for i in range(len(peptide)): for symbol in alphabet: if symbol == peptide[i]:
prefix_mass.append(prefix_mass[i] + int(mass_table[symbol]))`. -/
def build_prefix_mass (peptide : List Char) (t : List (Char × Nat)) : List Nat :=
  (List.range peptide.length).foldl
    (fun pm i =>
      (t.map Prod.fst).foldl
        (fun pm2 sym =>
          if sym = peptide.getD i ' ' then pm2 ++ [pm2.getD i 0 + residue_mass t sym] else pm2)
        pm)
    [0]

/-- `peptide_mass(peptide, mass_table)`: total mass of a peptide. -/
def peptide_mass (peptide : List Char) (t : List (Char × Nat)) : Nat :=
  peptide.foldl (fun mass ele => mass + residue_mass t ele) 0

/-- `linear_spectrum(peptide, mass_table)`: `[0]` followed by
`prefix_mass[j] - prefix_mass[i]` for `0 ≤ i < j ≤ n`, sorted ascending. -/
def linear_spectrum (peptide : List Char) (t : List (Char × Nat)) : List Nat :=
  let prefix_mass := build_prefix_mass peptide t
  let n := peptide.length
  pysorted (0 :: (List.range n).flatMap (fun i =>
    (List.range' (i + 1) (n - i)).map
      (fun j => prefix_mass.getD j 0 - prefix_mass.getD i 0)))

/-- `cyclic_spectrum(peptide, mass_table)`: the linear fragments plus, for
fragments touching neither end (`i > 0 and j < len(peptide)`), the
complementary wrap-around mass, sorted ascending. -/
def cyclic_spectrum (peptide : List Char) (t : List (Char × Nat)) : List Nat :=
  let prefix_mass := build_prefix_mass peptide t
  let n := peptide.length
  let pepM := peptide_mass peptide t
  pysorted (0 :: (List.range n).flatMap (fun i =>
    (List.range' (i + 1) (n - i)).flatMap (fun j =>
      let frag := prefix_mass.getD j 0 - prefix_mass.getD i 0
      if 0 < i ∧ j < n then [frag, pepM - frag] else [frag])))

/-- `cyclopeptide_scoring(peptide, spectrum, cyclic, mass_table)`: greedy
match count of the theoretical spectrum against a consumable copy of the
target spectrum (`if weight in spectrum_copy: score += 1;
spectrum_copy.remove(weight)`). -/
def cyclopeptide_scoring (peptide : List Char) (spectrum : List Nat) (cyclic : Bool)
    (t : List (Char × Nat)) : Nat :=
  let spectrum_to_compare :=
    if cyclic then cyclic_spectrum peptide t else linear_spectrum peptide t
  (spectrum_to_compare.foldl
    (fun acc weight => if weight ∈ acc.2 then (acc.1 + 1, acc.2.erase weight) else acc)
    ((0 : Nat), spectrum)).1

/-- Python `dict.fromkeys(l)` key list: first occurrences, in order. -/
def pyDedup (l : List (List Char)) : List (List Char) :=
  l.foldl (fun acc x => if x ∈ acc then acc else acc ++ [x]) []

/-- `trim(leader_board, spectrum, n, mass_table)`: below size `n` the board
passes through; otherwise candidates are deduplicated (`dict.fromkeys`),
linearly scored, and those reaching the score at descending rank `n`
(`scores[n-1]`) are kept in order. `none` is the `IndexError` raised by
`scores[n-1]`. -/
def trim (leader_board : List (List Char)) (spectrum : List Nat) (n : Nat)
    (t : List (Char × Nat)) : Option (List (List Char)) :=
  if leader_board.length < n then some leader_board
  else
    let keys := pyDedup leader_board
    let linear_scores := keys.map (fun k => (k, cyclopeptide_scoring k spectrum false t))
    let scores := sortDesc (linear_scores.map Prod.snd)
    match pyGet scores ((n : Int) - 1) with
    | none => none
    | some minimum_score =>
      some ((linear_scores.filter (fun kv => minimum_score ≤ kv.2)).map Prod.fst)

/-- State threaded through one pass of the candidate scan in
`leaderboard_peptide_sequencing`: current leader peptide, its score, and the
`peptides_to_remove` list accumulated so far. -/
structure ScanState where
  leader : List Char
  leaderScore : Nat
  toRemove : List (List Char)
deriving DecidableEq

/-- One iteration of the `for peptide in leader_board:` body: a candidate at
exactly the maximum spectrum mass is scored cyclically and replaces the
leader only on a strictly higher score; a candidate above the maximum is
queued for removal; others are left alone. -/
def scan_step (spectrum : List Nat) (maxS : Nat) (t : List (Char × Nat))
    (st : ScanState) (peptide : List Char) : ScanState :=
  let mass := peptide_mass peptide t
  if mass = maxS then
    let score := cyclopeptide_scoring peptide spectrum true t
    if st.leaderScore < score then ⟨peptide, score, st.toRemove⟩ else st
  else if maxS < mass then ⟨st.leader, st.leaderScore, st.toRemove ++ [peptide]⟩
  else st

/-- The whole `for peptide in leader_board:` scan of one round. -/
def round_scan (spectrum : List Nat) (maxS : Nat) (t : List (Char × Nat))
    (leader : List Char) (leaderScore : Nat) (board : List (List Char)) : ScanState :=
  board.foldl (scan_step spectrum maxS t) ⟨leader, leaderScore, []⟩

/-- `for i in range(len(peptides_to_remove)): leader_board.remove(...)`:
erase the first occurrence of each queued peptide in turn. -/
def erase_all (board rem : List (List Char)) : List (List Char) :=
  rem.foldl (fun b p => b.erase p) board

/-- Python runtime errors the sequencer can raise: `ValueError` from
`max([])`, `IndexError` from `scores[n-1]` in `trim`. -/
inductive PyErr where
  | valueError
  | indexError
deriving DecidableEq

/-- Outcome of a finished run: the returned leader peptide, or an uncaught
Python exception. -/
inductive RunResult where
  | ok (leader : List Char)
  | error (e : PyErr)
deriving DecidableEq

/-- `leader_board = [ele + aa for aa in amino_acids for ele in leader_board]`
(outer loop over the alphabet, inner over the board). -/
def expand (t : List (Char × Nat)) (board : List (List Char)) : List (List Char) :=
  (t.map Prod.fst).flatMap (fun aa => board.map (fun ele => ele ++ [aa]))

/-- The `while leader_board:` loop of `leaderboard_peptide_sequencing`,
with an explicit fuel parameter; `none` means the fuel ran out before the
loop finished (the loop itself never returns `none` — see
`leaderboard_peptide_sequencing_terminates`). -/
def sequencing_loop (spectrum : List Nat) (n : Nat) (t : List (Char × Nat)) :
    Nat → List (List Char) → List Char → Nat → Option RunResult
  | 0, board, leader, _ =>
    if board.isEmpty then some (.ok leader) else none
  | fuel + 1, board, leader, leaderScore =>
    if board.isEmpty then some (.ok leader)
    else
      let expanded := expand t board
      if expanded.isEmpty then some (.ok leader)
      else
        match pymax spectrum with
        | none => some (.error .valueError)
        | some maxS =>
          let st := round_scan spectrum maxS t leader leaderScore expanded
          let remaining := erase_all expanded st.toRemove
          if remaining.isEmpty then some (.ok st.leader)
          else
            match trim remaining spectrum n t with
            | none => some (.error .indexError)
            | some board2 =>
              sequencing_loop spectrum n t fuel board2 st.leader st.leaderScore

/-- `leaderboard_peptide_sequencing(spectrum, n, mass_table)`: start from the
empty peptide with leader `""` at score 0 and run the loop. -/
def leaderboard_peptide_sequencing (spectrum : List Nat) (n : Nat)
    (t : List (Char × Nat)) (fuel : Nat) : Option RunResult :=
  sequencing_loop spectrum n t fuel [[]] [] 0

/-! ### Scoring as a multiset intersection (C1) -/

lemma score_fold_eq (theo : List Nat) :
    ∀ (s : Nat) (target : List Nat),
      (theo.foldl
        (fun acc weight => if weight ∈ acc.2 then (acc.1 + 1, acc.2.erase weight) else acc)
        (s, target)).1 =
      s + Multiset.card ((theo : Multiset Nat) ∩ (target : Multiset Nat)) := by
  induction theo with
  | nil => intro s target; simp
  | cons w theo ih =>
    intro s target
    by_cases h : w ∈ target
    · have hm : w ∈ (target : Multiset Nat) := by simpa using h
      simp only [List.foldl_cons, if_pos h, ih]
      rw [show ((w :: theo : List Nat) : Multiset Nat) = w ::ₘ (theo : Multiset Nat) from rfl,
        Multiset.cons_inter_of_pos _ hm, Multiset.card_cons, ← Multiset.coe_erase]
      omega
    · have hm : w ∉ (target : Multiset Nat) := by simpa using h
      simp only [List.foldl_cons, if_neg h, ih]
      rw [show ((w :: theo : List Nat) : Multiset Nat) = w ::ₘ (theo : Multiset Nat) from rfl,
        Multiset.cons_inter_of_neg _ hm]

lemma card_coe_inter_eq_sum_min (A B : List Nat) :
    Multiset.card ((A : Multiset Nat) ∩ (B : Multiset Nat)) =
      ∑ v ∈ A.toFinset ∪ B.toFinset, min (A.count v) (B.count v) := by
  rw [← Multiset.toFinset_sum_count_eq]
  have hsub : ((A : Multiset Nat) ∩ (B : Multiset Nat)).toFinset ⊆ A.toFinset ∪ B.toFinset := by
    intro v hv
    simp only [Multiset.mem_toFinset, Multiset.mem_inter, Multiset.mem_coe] at hv
    simp only [Finset.mem_union, List.mem_toFinset]
    exact Or.inl hv.1
  rw [Finset.sum_subset hsub (fun v _ hv => by
    rw [Multiset.count_eq_zero]
    exact fun hmem => hv (Multiset.mem_toFinset.2 hmem))]
  refine Finset.sum_congr rfl fun v _ => ?_
  rw [Multiset.count_inter, Multiset.coe_count, Multiset.coe_count]

/-- C1: for every peptide, target spectrum and mode, `cyclopeptide_scoring`
returns the multiset-intersection cardinality of the theoretical spectrum
(per the mode) and the target spectrum: the sum over all mass values of
`min(count in theoretical, count in target)`. -/
theorem cyclopeptide_scoring_eq_sum_min (peptide : List Char) (spectrum : List Nat)
    (cyclic : Bool) (t : List (Char × Nat)) :
    cyclopeptide_scoring peptide spectrum cyclic t =
      ∑ v ∈ (if cyclic then cyclic_spectrum peptide t else linear_spectrum peptide t).toFinset ∪
          spectrum.toFinset,
        min ((if cyclic then cyclic_spectrum peptide t else linear_spectrum peptide t).count v)
          (spectrum.count v) := by
  unfold cyclopeptide_scoring
  rw [score_fold_eq, card_coe_inter_eq_sum_min, Nat.zero_add]

/-! ### The concrete `"ACA"` scenario (C6) -/

/-- C6 counterexample: with the table `{A:71, C:103}`, `linear_spectrum` on
`"ACA"` does NOT return the 8-element list `[0,71,71,103,103,174,174,245]`
stated by the claim (the substring `"C"` occurs once, so 103 appears once,
and the result has `3·4/2 + 1 = 7` elements). -/
theorem linear_spectrum_ACA_ne_claimed :
    linear_spectrum ['A', 'C', 'A'] [('A', 71), ('C', 103)] ≠
      [0, 71, 71, 103, 103, 174, 174, 245] := by decide

/-- C6 amended: with the table `{A:71, C:103}`, `linear_spectrum` on `"ACA"`
(total mass 245) returns exactly the sorted list `[0,71,71,103,174,174,245]`. -/
theorem linear_spectrum_ACA_eq :
    linear_spectrum ['A', 'C', 'A'] [('A', 71), ('C', 103)] =
      [0, 71, 71, 103, 174, 174, 245] := by decide

/-! ### Peptide masses and the prefix-mass array -/

lemma foldl_add_from (f : Char → Nat) (p : List Char) :
    ∀ a : Nat, p.foldl (fun m c => m + f c) a = a + (p.map f).sum := by
  induction p with
  | nil => intro a; simp
  | cons c p ih => intro a; simp [ih, Nat.add_assoc]

lemma peptide_mass_eq_sum (p : List Char) (t : List (Char × Nat)) :
    peptide_mass p t = (p.map (residue_mass t)).sum := by
  unfold peptide_mass; rw [foldl_add_from, Nat.zero_add]

lemma peptide_mass_append (p q : List Char) (t : List (Char × Nat)) :
    peptide_mass (p ++ q) t = peptide_mass p t + peptide_mass q t := by
  simp [peptide_mass_eq_sum]

lemma peptide_mass_nil (t : List (Char × Nat)) : peptide_mass [] t = 0 := rfl

lemma peptide_mass_singleton (c : Char) (t : List (Char × Nat)) :
    peptide_mass [c] t = residue_mass t c := by
  simp [peptide_mass_eq_sum]

lemma residue_mass_mem (t : List (Char × Nat)) (c : Char)
    (h : c ∈ t.map Prod.fst) : (c, residue_mass t c) ∈ t := by
  obtain ⟨sm, hsm, hc⟩ := List.mem_map.1 h
  have hsome : (t.find? (fun sm => sm.1 == c)).isSome := by
    rw [List.find?_isSome]
    exact ⟨sm, hsm, by simp [hc]⟩
  obtain ⟨pr, hpr⟩ := Option.isSome_iff_exists.1 hsome
  have hmem : pr ∈ t := List.mem_of_find?_eq_some hpr
  have hkey : pr.1 = c := by simpa using List.find?_some hpr
  have : residue_mass t c = pr.2 := by
    simp [residue_mass, dictGet, hpr]
  rw [this, ← hkey]
  exact hmem

lemma residue_mass_pos (t : List (Char × Nat)) (c : Char)
    (hpos : ∀ sm ∈ t, 0 < sm.2) (h : c ∈ t.map Prod.fst) :
    0 < residue_mass t c :=
  hpos _ (residue_mass_mem t c h)

lemma length_le_peptide_mass (t : List (Char × Nat)) (q : List Char)
    (hpos : ∀ sm ∈ t, 0 < sm.2) (hq : ∀ c ∈ q, c ∈ t.map Prod.fst) :
    q.length ≤ peptide_mass q t := by
  induction q with
  | nil => simp [peptide_mass_nil]
  | cons c q ih =>
    have h1 : 0 < residue_mass t c := residue_mass_pos t c hpos (hq c (by simp))
    have h2 := ih (fun d hd => hq d (by simp [hd]))
    have : peptide_mass (c :: q) t = residue_mass t c + peptide_mass q t := by
      simp [peptide_mass_eq_sum]
    simp only [List.length_cons, this]
    omega

lemma fold_keys_no_match (c : Char) (g : Char → Nat) (i : Nat) :
    ∀ (ks : List Char), (∀ k ∈ ks, k ≠ c) → ∀ pm : List Nat,
      ks.foldl (fun pm2 sym => if sym = c then pm2 ++ [pm2.getD i 0 + g sym] else pm2) pm = pm := by
  intro ks
  induction ks with
  | nil => intro _ pm; rfl
  | cons k ks ih =>
    intro h pm
    have hk : k ≠ c := h k (by simp)
    simp only [List.foldl_cons, if_neg hk]
    exact ih (fun k' hk' => h k' (by simp [hk'])) pm

lemma fold_keys_single (c : Char) (g : Char → Nat) (i : Nat) :
    ∀ (ks : List Char), ks.count c = 1 → ∀ pm : List Nat,
      ks.foldl (fun pm2 sym => if sym = c then pm2 ++ [pm2.getD i 0 + g sym] else pm2) pm =
        pm ++ [pm.getD i 0 + g c] := by
  intro ks
  induction ks with
  | nil => intro h; simp at h
  | cons k ks ih =>
    intro h pm
    by_cases hk : k = c
    · subst hk
      have hzero : ks.count k = 0 := by
        have := List.count_cons_self k ks
        omega
      have hnone : ∀ k' ∈ ks, k' ≠ k := by
        intro k' hk' he
        subst he
        exact absurd (List.count_pos_iff.2 hk') (by omega)
      simp only [List.foldl_cons, if_pos rfl]
      exact fold_keys_no_match k g i ks hnone _
    · have hcnt : ks.count c = 1 := by
        rwa [List.count_cons_of_ne (fun he => hk he.symm)] at h
      simp only [List.foldl_cons, if_neg hk]
      exact ih hcnt pm

/-- Under the dict invariants (unique keys, every peptide symbol present),
the `prefix_mass` loop builds exactly the list of prefix masses. -/
lemma build_prefix_mass_eq (p : List Char) (t : List (Char × Nat))
    (hnd : (t.map Prod.fst).Nodup) (hmem : ∀ c ∈ p, c ∈ t.map Prod.fst) :
    build_prefix_mass p t =
      (List.range (p.length + 1)).map (fun i => peptide_mass (p.take i) t) := by
  suffices h : ∀ k ≤ p.length,
      (List.range k).foldl
        (fun pm i =>
          (t.map Prod.fst).foldl
            (fun pm2 sym =>
              if sym = p.getD i ' ' then pm2 ++ [pm2.getD i 0 + residue_mass t sym] else pm2)
            pm)
        [0] =
      (List.range (k + 1)).map (fun i => peptide_mass (p.take i) t) by
    exact h p.length le_rfl
  intro k hk
  induction k with
  | zero =>
    have h1 : List.range 1 = [0] := rfl
    rw [h1]
    simp [peptide_mass_nil]
  | succ k ih =>
    have hk' : k ≤ p.length := Nat.le_of_succ_le hk
    have hklt : k < p.length := hk
    rw [List.range_succ, List.foldl_append, ih hk']
    have hgetp : p.getD k ' ' = p.get ⟨k, hklt⟩ := by
      rw [List.getD_eq_getElem?_getD, List.getElem?_eq_getElem hklt]
      rfl
    have hpmem : p.get ⟨k, hklt⟩ ∈ p := p.get_mem k hklt
    have hcnt : (t.map Prod.fst).count (p.getD k ' ') = 1 := by
      rw [hgetp]
      exact List.count_eq_one_of_mem hnd (hmem _ hpmem)
    simp only [List.foldl_cons, List.foldl_nil]
    rw [fold_keys_single _ _ _ _ hcnt]
    have hgd : ((List.range (k + 1)).map (fun i => peptide_mass (p.take i) t)).getD k 0 =
        peptide_mass (p.take k) t := by
      rw [List.getD_eq_getElem?_getD, List.getElem?_map, List.getElem?_range (by omega)]
      rfl
    rw [hgd]
    have htake : p.take (k + 1) = p.take k ++ [p.get ⟨k, hklt⟩] := by
      rw [List.take_succ, List.getElem?_eq_getElem hklt]
      rfl
    have hrange : List.range (k + 1 + 1) = List.range (k + 1) ++ [k + 1] := by
      simpa using List.range_succ (k + 1)
    rw [hrange, List.map_append]
    congr 1
    have hmass : peptide_mass (p.take (k + 1)) t =
        peptide_mass (p.take k) t + residue_mass t (p.getD k ' ') := by
      rw [htake, peptide_mass_append, peptide_mass_singleton, hgetp]
    simp [hmass]

lemma build_prefix_mass_getD (p : List Char) (t : List (Char × Nat))
    (hnd : (t.map Prod.fst).Nodup) (hmem : ∀ c ∈ p, c ∈ t.map Prod.fst)
    (j : Nat) (hj : j ≤ p.length) :
    (build_prefix_mass p t).getD j 0 = peptide_mass (p.take j) t := by
  rw [build_prefix_mass_eq p t hnd hmem, List.getD_eq_getElem?_getD,
    List.getElem?_map, List.getElem?_range (by omega)]
  rfl

lemma take_mass_mono (p : List Char) (t : List (Char × Nat)) {i j : Nat} (hij : i ≤ j) :
    peptide_mass (p.take i) t ≤ peptide_mass (p.take j) t := by
  have : p.take j = p.take i ++ ((p.drop i).take (j - i)) := by
    rw [← List.take_add]
    congr 1
    omega
  rw [this, peptide_mass_append]
  omega

lemma take_mass_strict_mono (p : List Char) (t : List (Char × Nat))
    (hpos : ∀ sm ∈ t, 0 < sm.2) (hmem : ∀ c ∈ p, c ∈ t.map Prod.fst)
    {i j : Nat} (hij : i < j) (hj : j ≤ p.length) :
    peptide_mass (p.take i) t < peptide_mass (p.take j) t := by
  have hsplit : p.take j = p.take i ++ ((p.drop i).take (j - i)) := by
    rw [← List.take_add]
    congr 1
    omega
  have hlen : 0 < ((p.drop i).take (j - i)).length := by
    rw [List.length_take, List.length_drop]
    omega
  have hsub : ∀ c ∈ (p.drop i).take (j - i), c ∈ t.map Prod.fst := by
    intro c hc
    exact hmem c (List.mem_of_mem_drop (List.mem_of_mem_take hc))
  have hmid : 1 ≤ peptide_mass ((p.drop i).take (j - i)) t := by
    have := length_le_peptide_mass t _ hpos hsub
    omega
  rw [hsplit, peptide_mass_append]
  omega

/-! ### Sorted lists: first and last elements, sums over index ranges -/

lemma sorted_head?_eq (l : List Nat) (x : Nat) (hs : l.Sorted (· ≤ ·))
    (hx : x ∈ l) (hmin : ∀ y ∈ l, x ≤ y) : l.head? = some x := by
  cases l with
  | nil => cases hx
  | cons a l =>
    rcases List.mem_cons.1 hx with h | h
    · simp [h]
    · have h1 : a ≤ x := List.rel_of_sorted_cons hs x h
      have h2 : x ≤ a := hmin a (by simp)
      simp [le_antisymm h1 h2]

lemma sorted_getLast?_eq (l : List Nat) : ∀ x : Nat, l.Sorted (· ≤ ·) →
    x ∈ l → (∀ y ∈ l, y ≤ x) → l.getLast? = some x := by
  induction l with
  | nil => intro x _ hx _; cases hx
  | cons a l ih =>
    intro x hs hx hmax
    cases l with
    | nil =>
      rcases List.mem_cons.1 hx with h | h
      · simp [h]
      · cases h
    | cons b l' =>
      rw [List.getLast?_cons_cons]
      have hxmem : x ∈ b :: l' := by
        rcases List.mem_cons.1 hx with h | h
        · subst h
          have h1 : x ≤ b := List.rel_of_sorted_cons hs b (by simp)
          have h2 : b ≤ x := hmax b (by simp)
          simp [le_antisymm h1 h2]
        · exact h
      exact ih x hs.of_cons hxmem (fun y hy => hmax y (by simp [hy]))

lemma length_flatMap_eq (l : List Nat) (f : Nat → List Nat) :
    (l.flatMap f).length = (l.map (fun a => (f a).length)).sum := by
  induction l with
  | nil => simp
  | cons a l ih => simp [List.flatMap_cons, ih]

lemma count_flatMap_eq (l : List Nat) (f : Nat → List Nat) (x : Nat) :
    (l.flatMap f).count x = (l.map (fun a => (f a).count x)).sum := by
  induction l with
  | nil => simp
  | cons a l ih => simp [List.flatMap_cons, ih]

lemma sum_map_range (f : Nat → Nat) (n : Nat) :
    ((List.range n).map f).sum = ∑ i ∈ Finset.range n, f i := by
  induction n with
  | zero => simp
  | succ n ih =>
    rw [List.range_succ, List.map_append, List.sum_append, ih, Finset.sum_range_succ]
    simp

lemma gauss_sub (n : Nat) : ∑ i ∈ Finset.range n, (n - i) = n * (n + 1) / 2 := by
  have h1 : ∑ i ∈ Finset.range n, (n - i) = ∑ i ∈ Finset.range n, (i + 1) := by
    rw [← Finset.sum_range_reflect (fun i => n - i) n]
    exact Finset.sum_congr rfl (fun j hj => by
      have := Finset.mem_range.1 hj
      omega)
  have h2 : ∑ i ∈ Finset.range n, (i + 1) = ∑ i ∈ Finset.range (n + 1), i := by
    rw [Finset.sum_range_succ' (fun i => i) n]
    simp
  rw [h1, h2, Finset.sum_range_id]
  simp [Nat.mul_comm]

/-! ### Linear spectrum: shape, extremes (C3) -/

/-- C3: for a peptide of length `n` with all symbols in the (duplicate-free)
table, `linear_spectrum` returns `n(n+1)/2 + 1` masses sorted ascending,
starting at 0 and ending at the peptide's total mass. -/
theorem linear_spectrum_spec (p : List Char) (t : List (Char × Nat))
    (hnd : (t.map Prod.fst).Nodup) (hmem : ∀ c ∈ p, c ∈ t.map Prod.fst) :
    (linear_spectrum p t).length = p.length * (p.length + 1) / 2 + 1 ∧
    (linear_spectrum p t).Sorted (· ≤ ·) ∧
    (linear_spectrum p t).head? = some 0 ∧
    (linear_spectrum p t).getLast? = some (peptide_mass p t) := by
  have hunfold : linear_spectrum p t =
      pysorted (0 :: (List.range p.length).flatMap (fun i =>
        (List.range' (i + 1) (p.length - i)).map
          (fun j => (build_prefix_mass p t).getD j 0 - (build_prefix_mass p t).getD i 0))) := rfl
  set n := p.length with hn
  set pm := build_prefix_mass p t with hpm
  set frags := (List.range n).flatMap (fun i =>
    (List.range' (i + 1) (n - i)).map (fun j => pm.getD j 0 - pm.getD i 0)) with hfrags
  have hperm : List.Perm (pysorted (0 :: frags)) (0 :: frags) := List.perm_insertionSort _ _
  have hsorted : (pysorted (0 :: frags)).Sorted (· ≤ ·) := List.sorted_insertionSort _ _
  have hub : ∀ y ∈ (0 :: frags), y ≤ peptide_mass p t := by
    intro y hy
    rcases List.mem_cons.1 hy with h | h
    · omega
    · obtain ⟨i, hi, hyi⟩ := List.mem_flatMap.1 h
      obtain ⟨j, hj, hyj⟩ := List.mem_map.1 hyi
      have hi' : i < n := List.mem_range.1 hi
      have hj' : i + 1 ≤ j ∧ j < i + 1 + (n - i) := List.mem_range'_1.1 hj
      have hjn : j ≤ n := by omega
      have hgj : pm.getD j 0 = peptide_mass (p.take j) t :=
        build_prefix_mass_getD p t hnd hmem j hjn
      have hmono : peptide_mass (p.take j) t ≤ peptide_mass p t := by
        have := take_mass_mono p t (le_of_eq (rfl : j = j) |>.trans hjn : j ≤ n)
        rwa [hn, List.take_length] at this
      omega
  have hmemtotal : peptide_mass p t ∈ (0 :: frags) := by
    rcases Nat.eq_zero_or_pos n with h0 | hpos
    · have hpnil : p = [] := List.length_eq_zero.1 h0
      subst hpnil
      simp [peptide_mass_nil, hfrags]
    · refine List.mem_cons.2 (Or.inr ?_)
      refine List.mem_flatMap.2 ⟨0, List.mem_range.2 hpos, ?_⟩
      refine List.mem_map.2 ⟨n, List.mem_range'_1.2 (by omega), ?_⟩
      have hg0 : pm.getD 0 0 = peptide_mass (p.take 0) t :=
        build_prefix_mass_getD p t hnd hmem 0 (by omega)
      have hgn : pm.getD n 0 = peptide_mass (p.take n) t :=
        build_prefix_mass_getD p t hnd hmem n le_rfl
      rw [hgn, hg0, hn, List.take_length]
      simp [peptide_mass_nil]
  refine ⟨?_, ?_, ?_, ?_⟩
  · rw [hunfold, hperm.length_eq, List.length_cons]
    have hflen : frags.length = ((List.range n).map (fun i => n - i)).sum := by
      rw [hfrags, length_flatMap_eq]
      congr 1
      refine List.map_congr_left (fun i _ => ?_)
      rw [List.length_map, List.length_range']
    rw [hflen, sum_map_range, gauss_sub]
  · rw [hunfold]; exact hsorted
  · rw [hunfold]
    refine sorted_head?_eq _ _ hsorted ?_ ?_
    · exact hperm.mem_iff.2 (by simp)
    · intro y _; exact Nat.zero_le y
  · rw [hunfold]
    refine sorted_getLast?_eq _ _ hsorted ?_ ?_
    · exact hperm.mem_iff.2 hmemtotal
    · intro y hy
      exact hub y (hperm.mem_iff.1 hy)

/-- Witness for `linear_spectrum_spec` at the `"ACA"`/`{A:71, C:103}`
instance. -/
theorem linear_spectrum_spec_witness :
    (linear_spectrum ['A', 'C', 'A'] [('A', 71), ('C', 103)]).length = 3 * (3 + 1) / 2 + 1 ∧
    (linear_spectrum ['A', 'C', 'A'] [('A', 71), ('C', 103)]).Sorted (· ≤ ·) ∧
    (linear_spectrum ['A', 'C', 'A'] [('A', 71), ('C', 103)]).head? = some 0 ∧
    (linear_spectrum ['A', 'C', 'A'] [('A', 71), ('C', 103)]).getLast? =
      some (peptide_mass ['A', 'C', 'A'] [('A', 71), ('C', 103)]) :=
  linear_spectrum_spec ['A', 'C', 'A'] [('A', 71), ('C', 103)] (by decide) (by decide)

/-! ### Cyclic spectrum: shape and multiplicities (C4) -/

lemma sum_map_const_nat (l : List Nat) (c : Nat) : (l.map (fun _ => c)).sum = c * l.length := by
  induction l with
  | nil => simp
  | cons a l ih =>
    simp only [List.map_cons, List.sum_cons, ih, List.length_cons, Nat.mul_succ]
    omega

lemma cyclic_frags_length (P : Nat → Nat) (T n : Nat) (h1 : 1 ≤ n) :
    ((List.range n).flatMap (fun i => (List.range' (i + 1) (n - i)).flatMap (fun j =>
      if 0 < i ∧ j < n then [P j - P i, T - (P j - P i)] else [P j - P i]))).length =
      n * (n - 1) + 1 := by
  obtain ⟨m, rfl⟩ : ∃ m, n = m + 1 := ⟨n - 1, by omega⟩
  rw [length_flatMap_eq, sum_map_range]
  have hcongr : ∀ i ∈ Finset.range (m + 1),
      ((List.range' (i + 1) (m + 1 - i)).flatMap (fun j =>
        if 0 < i ∧ j < m + 1 then [P j - P i, T - (P j - P i)] else [P j - P i])).length =
      if i = 0 then m + 1 else 2 * (m - i) + 1 := by
    intro i hi
    have hilt : i < m + 1 := Finset.mem_range.1 hi
    rw [length_flatMap_eq]
    by_cases h0 : i = 0
    · subst h0
      have hmap : (List.range' 1 (m + 1)).map (fun j =>
          (if 0 < 0 ∧ j < m + 1 then [P j - P 0, T - (P j - P 0)] else [P j - P 0]).length) =
          (List.range' 1 (m + 1)).map (fun _ => 1) := by
        refine List.map_congr_left (fun j _ => ?_)
        rw [if_neg (by omega)]
        rfl
      rw [show m + 1 - 0 = m + 1 from rfl, hmap, sum_map_const_nat, List.length_range']
      simp
    · have hi1 : 1 ≤ i := by omega
      have hsplit : List.range' (i + 1) (m + 1 - i) = List.range' (i + 1) (m - i) ++ [m + 1] := by
        have h := @List.range'_concat 1 (i + 1) (m - i)
        rw [show m - i + 1 = m + 1 - i by omega] at h
        rw [h, show i + 1 + 1 * (m - i) = m + 1 by omega]
      rw [hsplit, List.map_append, List.sum_append]
      have hmap : (List.range' (i + 1) (m - i)).map (fun j =>
          (if 0 < i ∧ j < m + 1 then [P j - P i, T - (P j - P i)] else [P j - P i]).length) =
          (List.range' (i + 1) (m - i)).map (fun _ => 2) := by
        refine List.map_congr_left (fun j hj => ?_)
        have hb := List.mem_range'_1.1 hj
        rw [if_pos ⟨hi1, by omega⟩]
        rfl
      rw [hmap, sum_map_const_nat, List.length_range']
      rw [if_neg h0]
      have : (if 0 < i ∧ m + 1 < m + 1 then [P (m + 1) - P i, T - (P (m + 1) - P i)]
          else [P (m + 1) - P i]).length = 1 := by
        rw [if_neg (by omega)]
        rfl
      simp [this]
  rw [Finset.sum_congr rfl hcongr, Finset.sum_range_succ' _ m]
  have hcongr2 : ∀ k ∈ Finset.range m,
      (if k + 1 = 0 then m + 1 else 2 * (m - (k + 1)) + 1) = 2 * (m - 1 - k) + 1 := by
    intro k hk
    rw [if_neg (by omega)]
    have := Finset.mem_range.1 hk
    congr 1
    omega
  rw [Finset.sum_congr rfl hcongr2]
  have hsplit2 : ∑ k ∈ Finset.range m, (2 * (m - 1 - k) + 1) =
      2 * (∑ k ∈ Finset.range m, (m - 1 - k)) + m := by
    rw [Finset.sum_add_distrib, Finset.mul_sum]
    simp
  have hrefl : ∑ k ∈ Finset.range m, (m - 1 - k) = ∑ k ∈ Finset.range m, k :=
    Finset.sum_range_reflect (fun j => j) m
  rw [hsplit2, hrefl]
  have hF0 : (if (0 : Nat) = 0 then m + 1 else 2 * (m - 0) + 1) = m + 1 := if_pos rfl
  rw [hF0, show m + 1 - 1 = m from rfl]
  have hg := Finset.sum_range_id_mul_two m
  have hb : (m + 1) * m = m * (m - 1) + 2 * m := by
    rcases Nat.eq_zero_or_pos m with h | h
    · subst h; rfl
    · obtain ⟨r, rfl⟩ : ∃ r, m = r + 1 := ⟨m - 1, by omega⟩
      rw [show r + 1 - 1 = r from rfl]
      ring
  omega

lemma cyclic_frags_pos (P : Nat → Nat) (T n : Nat)
    (hmono : ∀ i j, i < j → j ≤ n → P i < P j) (hPn : P n = T) :
    ∀ y ∈ (List.range n).flatMap (fun i => (List.range' (i + 1) (n - i)).flatMap (fun j =>
      if 0 < i ∧ j < n then [P j - P i, T - (P j - P i)] else [P j - P i])), 0 < y := by
  intro y hy
  obtain ⟨i, hi, hyi⟩ := List.mem_flatMap.1 hy
  obtain ⟨j, hj, hyj⟩ := List.mem_flatMap.1 hyi
  have hi' : i < n := List.mem_range.1 hi
  have hjb := List.mem_range'_1.1 hj
  have hPij : P i < P j := hmono i j (by omega) (by omega)
  by_cases hc : 0 < i ∧ j < n
  · rw [if_pos hc] at hyj
    have hjltn : P j < P n := hmono j n hc.2 le_rfl
    rcases List.mem_cons.1 hyj with h | h
    · omega
    · rcases List.mem_singleton.1 h with h'
      omega
  · rw [if_neg hc] at hyj
    rcases List.mem_singleton.1 hyj with h
    omega

lemma cyclic_frags_count_T (P : Nat → Nat) (T n : Nat) (h1 : 1 ≤ n)
    (hP0 : P 0 = 0) (hPn : P n = T) (hT : 0 < T)
    (hmono : ∀ i j, i < j → j ≤ n → P i < P j) :
    ((List.range n).flatMap (fun i => (List.range' (i + 1) (n - i)).flatMap (fun j =>
      if 0 < i ∧ j < n then [P j - P i, T - (P j - P i)] else [P j - P i]))).count T = 1 := by
  rw [count_flatMap_eq, sum_map_range]
  have hcongr : ∀ i ∈ Finset.range n,
      ((List.range' (i + 1) (n - i)).flatMap (fun j =>
        if 0 < i ∧ j < n then [P j - P i, T - (P j - P i)] else [P j - P i])).count T =
      if i = 0 then 1 else 0 := by
    intro i hi
    have hilt : i < n := Finset.mem_range.1 hi
    rw [count_flatMap_eq]
    by_cases h0 : i = 0
    · subst h0
      rw [if_pos rfl]
      have hsplit : List.range' (0 + 1) (n - 0) = List.range' 1 (n - 1) ++ [n] := by
        have h := @List.range'_concat 1 1 (n - 1)
        rw [show n - 1 + 1 = n - 0 by omega] at h
        rw [show (0 : Nat) + 1 = 1 from rfl, h, show 1 + 1 * (n - 1) = n by omega]
      rw [hsplit, List.map_append, List.sum_append]
      have hmap0 : (List.range' 1 (n - 1)).map (fun j =>
          (if 0 < 0 ∧ j < n then [P j - P 0, T - (P j - P 0)] else [P j - P 0]).count T) =
          (List.range' 1 (n - 1)).map (fun _ => 0) := by
        refine List.map_congr_left (fun j hj => ?_)
        have hb := List.mem_range'_1.1 hj
        rw [if_neg (by omega)]
        rw [List.count_eq_zero]
        intro hmem
        rcases List.mem_singleton.1 hmem with h
        have hjn : P j < P n := hmono j n (by omega) le_rfl
        omega
      rw [hmap0, sum_map_const_nat]
      have hlast : (if 0 < 0 ∧ n < n then [P n - P 0, T - (P n - P 0)] else [P n - P 0]).count T
          = 1 := by
        rw [if_neg (by omega), hPn, hP0, Nat.sub_zero]
        simp
      simp only [List.map_cons, List.map_nil, List.sum_cons, List.sum_nil, hlast]
      simp
    · rw [if_neg h0]
      have hmapz : (List.range' (i + 1) (n - i)).map (fun j =>
          (if 0 < i ∧ j < n then [P j - P i, T - (P j - P i)] else [P j - P i]).count T) =
          (List.range' (i + 1) (n - i)).map (fun _ => 0) := by
        refine List.map_congr_left (fun j hj => ?_)
        have hb := List.mem_range'_1.1 hj
        have hPij : P i < P j := hmono i j (by omega) (by omega)
        by_cases hjn : j < n
        · rw [if_pos ⟨by omega, hjn⟩]
          rw [List.count_eq_zero]
          intro hmem
          have hPjn : P j < P n := hmono j n hjn le_rfl
          rcases List.mem_cons.1 hmem with h | h
          · omega
          · rcases List.mem_singleton.1 h with h'
            omega
        · have hjeq : j = n := by omega
          subst hjeq
          rw [if_neg (by omega)]
          rw [List.count_eq_zero]
          intro hmem
          rcases List.mem_singleton.1 hmem with h
          have hPi : P 0 < P i := hmono 0 i (by omega) (by omega)
          omega
      rw [hmapz, sum_map_const_nat]
      simp
  rw [Finset.sum_congr rfl hcongr, Finset.sum_ite_eq' (Finset.range n) 0 (fun _ => 1)]
  rw [if_pos (Finset.mem_range.2 (by omega))]

/-- C4: for a peptide with all symbols in the (duplicate-free) table and
strictly positive residue masses, `cyclic_spectrum` is sorted ascending; for
`n ≥ 1` it has exactly `n(n-1)+2` masses; for `n ≥ 2` the total mass and 0
each appear exactly once; a 0-length peptide yields `[0]`. -/
theorem cyclic_spectrum_spec (p : List Char) (t : List (Char × Nat))
    (hnd : (t.map Prod.fst).Nodup) (hmem : ∀ c ∈ p, c ∈ t.map Prod.fst)
    (hpos : ∀ sm ∈ t, 0 < sm.2) :
    (cyclic_spectrum p t).Sorted (· ≤ ·) ∧
    (1 ≤ p.length → (cyclic_spectrum p t).length = p.length * (p.length - 1) + 2) ∧
    (2 ≤ p.length →
      (cyclic_spectrum p t).count (peptide_mass p t) = 1 ∧
      (cyclic_spectrum p t).count 0 = 1) ∧
    (p.length = 0 → cyclic_spectrum p t = [0]) := by
  have hnil : p.length = 0 → cyclic_spectrum p t = [0] := by
    intro h
    have hp : p = [] := List.length_eq_zero.1 h
    subst hp
    rfl
  set n := p.length with hn
  set pm := build_prefix_mass p t with hpm
  set T := peptide_mass p t with hTdef
  set F := (List.range n).flatMap (fun i => (List.range' (i + 1) (n - i)).flatMap (fun j =>
      if 0 < i ∧ j < n then [pm.getD j 0 - pm.getD i 0, T - (pm.getD j 0 - pm.getD i 0)]
      else [pm.getD j 0 - pm.getD i 0])) with hF
  have hunfold : cyclic_spectrum p t = pysorted (0 :: F) := rfl
  have hperm : List.Perm (pysorted (0 :: F)) (0 :: F) := List.perm_insertionSort _ _
  have hP : ∀ j, j ≤ n → pm.getD j 0 = peptide_mass (p.take j) t := fun j hj =>
    build_prefix_mass_getD p t hnd hmem j hj
  have hP0 : pm.getD 0 0 = 0 := by
    rw [hP 0 (Nat.zero_le _)]
    simp [peptide_mass_nil]
  have hPn : pm.getD n 0 = T := by
    rw [hP n le_rfl, hn, List.take_length]
  have hmono : ∀ i j, i < j → j ≤ n → pm.getD i 0 < pm.getD j 0 := by
    intro i j hij hj
    rw [hP i (by omega), hP j hj]
    exact take_mass_strict_mono p t hpos hmem hij hj
  refine ⟨?_, ?_, ?_, hnil⟩
  · rw [hunfold]
    exact List.sorted_insertionSort _ _
  · intro h1
    have hFlen : F.length = n * (n - 1) + 1 :=
      cyclic_frags_length (fun j => pm.getD j 0) T n h1
    rw [hunfold, hperm.length_eq, List.length_cons, hFlen]
  · intro h2
    have hTge : n ≤ T := by
      rw [hTdef, hn]
      exact length_le_peptide_mass t p hpos hmem
    have hTpos : 0 < T := lt_of_lt_of_le (by omega) hTge
    have hcT : F.count T = 1 :=
      cyclic_frags_count_T (fun j => pm.getD j 0) T n (by omega) hP0 hPn hTpos hmono
    have hposF : ∀ y ∈ F, 0 < y :=
      cyclic_frags_pos (fun j => pm.getD j 0) T n hmono hPn
    have hTne : T ≠ 0 := Nat.pos_iff_ne_zero.1 hTpos
    have hcz : F.count 0 = 0 := by
      rw [List.count_eq_zero]
      intro hmem
      exact absurd (hposF 0 hmem) (by omega)
    constructor
    · rw [hunfold, hperm.count_eq]
      simp [List.count_cons, hcT, hTne]
    · rw [hunfold, hperm.count_eq]
      simp [List.count_cons, hcz]

/-- Witness for `cyclic_spectrum_spec` at the `"ACA"`/`{A:71, C:103}`
instance. -/
theorem cyclic_spectrum_spec_witness :
    (cyclic_spectrum ['A', 'C', 'A'] [('A', 71), ('C', 103)]).Sorted (· ≤ ·) ∧
    (1 ≤ (['A', 'C', 'A'] : List Char).length →
      (cyclic_spectrum ['A', 'C', 'A'] [('A', 71), ('C', 103)]).length =
        (['A', 'C', 'A'] : List Char).length * ((['A', 'C', 'A'] : List Char).length - 1) + 2) ∧
    (2 ≤ (['A', 'C', 'A'] : List Char).length →
      (cyclic_spectrum ['A', 'C', 'A'] [('A', 71), ('C', 103)]).count
        (peptide_mass ['A', 'C', 'A'] [('A', 71), ('C', 103)]) = 1 ∧
      (cyclic_spectrum ['A', 'C', 'A'] [('A', 71), ('C', 103)]).count 0 = 1) ∧
    ((['A', 'C', 'A'] : List Char).length = 0 →
      cyclic_spectrum ['A', 'C', 'A'] [('A', 71), ('C', 103)] = [0]) :=
  cyclic_spectrum_spec ['A', 'C', 'A'] [('A', 71), ('C', 103)]
    (by decide) (by decide) (by decide)

/-! ### Trim: dedup, descending sort, thresholds (C2, C5) -/

instance : IsTotal Nat (fun a b : Nat => b ≤ a) := ⟨fun a b => le_total b a⟩

instance : IsTrans Nat (fun a b : Nat => b ≤ a) := ⟨fun _ _ _ hab hbc => le_trans hbc hab⟩

lemma pyDedup_aux (l : List (List Char)) :
    ∀ acc : List (List Char), (acc ++ l).Nodup →
      l.foldl (fun acc x => if x ∈ acc then acc else acc ++ [x]) acc = acc ++ l := by
  induction l with
  | nil => intro acc _; simp
  | cons x l ih =>
    intro acc hnd
    have hx : x ∉ acc := by
      have hdisj := List.disjoint_of_nodup_append hnd
      exact fun hmem => hdisj hmem (by simp)
    have hnd' : ((acc ++ [x]) ++ l).Nodup := by
      rwa [List.append_assoc, List.singleton_append]
    simp only [List.foldl_cons, if_neg hx]
    rw [ih (acc ++ [x]) hnd', List.append_assoc, List.singleton_append]

lemma pyDedup_eq_self (l : List (List Char)) (h : l.Nodup) : pyDedup l = l := by
  unfold pyDedup
  have := pyDedup_aux l [] (by simpa using h)
  simpa using this

lemma sortDesc_perm (l : List Nat) : List.Perm (sortDesc l) l :=
  List.perm_insertionSort _ _

lemma sortDesc_sorted (l : List Nat) : (sortDesc l).Sorted (fun a b => b ≤ a) :=
  List.sorted_insertionSort _ _

lemma get?_eq_some_getD (l : List Nat) (i : Nat) (h : i < l.length) :
    l.get? i = some (l.getD i 0) := by
  rw [List.get?_eq_getElem?, List.getElem?_eq_getElem h, List.getD_eq_getElem?_getD,
    List.getElem?_eq_getElem h]
  rfl

lemma sorted_desc_getD_le (l : List Nat) (hs : l.Sorted (fun a b : Nat => b ≤ a)) :
    ∀ i k : Nat, i ≤ k → k < l.length → l.getD k 0 ≤ l.getD i 0 := by
  intro i k hik hk
  have hi : i < l.length := lt_of_le_of_lt hik hk
  have hrel := hs.rel_get_of_le (show (⟨i, hi⟩ : Fin l.length) ≤ ⟨k, hk⟩ from hik)
  rw [List.getD_eq_getElem?_getD, List.getElem?_eq_getElem hk,
    List.getD_eq_getElem?_getD, List.getElem?_eq_getElem hi]
  exact hrel

/-- A canonical form of `trim` with all `let`s expanded (definitional). -/
lemma trim_eq (leader_board : List (List Char)) (spectrum : List Nat) (n : Nat)
    (t : List (Char × Nat)) :
    trim leader_board spectrum n t =
      if leader_board.length < n then some leader_board
      else
        match pyGet (sortDesc (((pyDedup leader_board).map
            (fun k => (k, cyclopeptide_scoring k spectrum false t))).map Prod.snd))
            ((n : Int) - 1) with
        | none => none
        | some minimum_score =>
          some ((((pyDedup leader_board).map
            (fun k => (k, cyclopeptide_scoring k spectrum false t))).filter
              (fun kv => minimum_score ≤ kv.2)).map Prod.fst) := rfl

lemma snd_of_pair_map (S : List (List Char)) (f : List Char → Nat) :
    ((S.map (fun k => (k, f k))).map Prod.snd) = S.map f := by
  rw [List.map_map]
  rfl

/-- C2 counterexample: a leaderboard of size exactly `n` containing a
duplicate makes `trim` raise an `IndexError` (`scores[n-1]` after
`dict.fromkeys` deduplication) instead of returning the board unchanged. -/
theorem trim_size_eq_n_duplicates_fails :
    trim [['A'], ['A']] [] 2 [('A', 71)] ≠ some [['A'], ['A']] := by decide

/-- C2 amended: `trim` returns the leaderboard unchanged whenever its size is
strictly below `n`, or equals `n ≥ 1` with pairwise-distinct entries; on such
inputs `trim` is idempotent. (The unamended claim fails at `|S| = n`: the code
tests `len < n`, and the else-branch deduplicates before indexing
`scores[n-1]`, so duplicates — or `n = 0` — raise an `IndexError`.) -/
theorem trim_noop (S : List (List Char)) (spectrum : List Nat) (n : Nat)
    (t : List (Char × Nat))
    (h : S.length < n ∨ (S.length = n ∧ 1 ≤ n ∧ S.Nodup)) :
    trim S spectrum n t = some S ∧
      (trim S spectrum n t).bind (fun S2 => trim S2 spectrum n t) = trim S spectrum n t := by
  have hmain : trim S spectrum n t = some S := by
    rcases h with hlt | ⟨heq, hn1, hnd⟩
    · rw [trim_eq, if_pos hlt]
    · rw [trim_eq, if_neg (by omega), pyDedup_eq_self S hnd, snd_of_pair_map]
      set scores := sortDesc (S.map (fun k => cyclopeptide_scoring k spectrum false t))
        with hscores
      have hslen : scores.length = n := by
        rw [hscores, (sortDesc_perm _).length_eq, List.length_map, heq]
      have hget : pyGet scores ((n : Int) - 1) = some (scores.getD (n - 1) 0) := by
        unfold pyGet
        rw [if_pos (by omega)]
        rw [show ((n : Int) - 1).toNat = n - 1 by omega]
        exact get?_eq_some_getD scores (n - 1) (by omega)
      rw [hget]
      have hall : ∀ kv ∈ S.map (fun k => (k, cyclopeptide_scoring k spectrum false t)),
          scores.getD (n - 1) 0 ≤ kv.2 := by
        intro kv hkv
        have h2 : kv.2 ∈ S.map (fun k => cyclopeptide_scoring k spectrum false t) := by
          obtain ⟨k, hk, rfl⟩ := List.mem_map.1 hkv
          exact List.mem_map.2 ⟨k, hk, rfl⟩
        have h3 : kv.2 ∈ scores := (sortDesc_perm _).mem_iff.2 h2
        obtain ⟨j, hj⟩ := List.mem_iff_get.1 h3
        have hj2 : scores.getD j 0 = kv.2 := by
          rw [List.getD_eq_getElem?_getD, List.getElem?_eq_getElem j.isLt]
          simpa using hj
        have hle := sorted_desc_getD_le scores (sortDesc_sorted _) j (n - 1)
          (by have := j.isLt; omega) (by omega)
        rw [hj2] at hle
        exact hle
      have hfilter : (S.map (fun k => (k, cyclopeptide_scoring k spectrum false t))).filter
          (fun kv => scores.getD (n - 1) 0 ≤ kv.2) =
          S.map (fun k => (k, cyclopeptide_scoring k spectrum false t)) :=
        List.filter_eq_self.2 (fun kv hkv => by simpa using hall kv hkv)
      show some (((S.map (fun k => (k, cyclopeptide_scoring k spectrum false t))).filter
          (fun kv => scores.getD (n - 1) 0 ≤ kv.2)).map Prod.fst) = some S
      rw [hfilter, List.map_map]
      rw [show (Prod.fst ∘ fun k : List Char => (k, cyclopeptide_scoring k spectrum false t)) =
        id from rfl]
      rw [List.map_id]
  refine ⟨hmain, ?_⟩
  rw [hmain]
  exact hmain

/-- Witness for `trim_noop`: a two-element distinct board at `n = 2` passes
through unchanged, and `trim` is idempotent there. -/
theorem trim_noop_witness :
    trim [['A'], ['C']] [71] 2 [('A', 71), ('C', 103)] = some [['A'], ['C']] ∧
      (trim [['A'], ['C']] [71] 2 [('A', 71), ('C', 103)]).bind
        (fun S2 => trim S2 [71] 2 [('A', 71), ('C', 103)]) =
        trim [['A'], ['C']] [71] 2 [('A', 71), ('C', 103)] :=
  trim_noop [['A'], ['C']] [71] 2 [('A', 71), ('C', 103)]
    (Or.inr ⟨by decide, by decide, by decide⟩)

lemma pair_filter_map (S : List (List Char)) (f : List Char → Nat) (P : Nat → Bool) :
    ((S.map (fun k => (k, f k))).filter (fun kv => P kv.2)).map Prod.fst =
      S.filter (fun k => P (f k)) := by
  induction S with
  | nil => rfl
  | cons a S ih =>
    simp only [List.map_cons, List.filter_cons]
    by_cases h : P (f a)
    · simp [h, ih]
    · simp [h, ih]

lemma countP_ge_of_sorted_desc (l : List Nat) (hs : l.Sorted (fun a b : Nat => b ≤ a))
    (n : Nat) (h1 : 1 ≤ n) (hn : n ≤ l.length) :
    n ≤ l.countP (fun x => l.getD (n - 1) 0 ≤ x) := by
  have htake : (l.take n).countP (fun x => decide (l.getD (n - 1) 0 ≤ x)) = n := by
    rw [List.countP_eq_length.2, List.length_take, Nat.min_eq_left hn]
    intro x hx
    obtain ⟨⟨i, hi⟩, hget⟩ := List.mem_iff_get.1 hx
    have hi2 : i < l.length := by
      rw [List.length_take] at hi
      omega
    have hxval : x = l.getD i 0 := by
      rw [← hget, List.get_eq_getElem, List.getElem_take, List.getD_eq_getElem?_getD,
        List.getElem?_eq_getElem hi2]
      rfl
    have hin : i ≤ n - 1 := by
      rw [List.length_take] at hi
      omega
    have := sorted_desc_getD_le l hs i (n - 1) hin (by omega)
    rw [hxval]
    exact decide_eq_true this
  have hsplit := List.countP_append (fun x => decide (l.getD (n - 1) 0 ≤ x)) (l.take n) (l.drop n)
  rw [List.take_append_drop] at hsplit
  rw [hsplit, htake]
  omega

/-- C5: on a duplicate-free leaderboard of size at least `n ≥ 1`, `trim`
returns exactly the candidates whose linear score reaches the `n`-th highest
linear score (the entry at descending rank `n`), and at least `n`
candidates survive. -/
theorem trim_keeps_ties (S : List (List Char)) (spectrum : List Nat) (n : Nat)
    (t : List (Char × Nat)) (hnd : S.Nodup) (hn1 : 1 ≤ n) (hlen : n ≤ S.length) :
    trim S spectrum n t =
      some (S.filter (fun q =>
        (sortDesc (S.map (fun q' => cyclopeptide_scoring q' spectrum false t))).getD (n - 1) 0 ≤
          cyclopeptide_scoring q spectrum false t)) ∧
    n ≤ (S.filter (fun q =>
        (sortDesc (S.map (fun q' => cyclopeptide_scoring q' spectrum false t))).getD (n - 1) 0 ≤
          cyclopeptide_scoring q spectrum false t)).length := by
  set score : List Char → Nat := fun q => cyclopeptide_scoring q spectrum false t with hsc
  set scores := sortDesc (S.map score) with hscores
  have hslen : scores.length = S.length := by
    rw [hscores, (sortDesc_perm _).length_eq, List.length_map]
  constructor
  · rw [trim_eq, if_neg (by omega), pyDedup_eq_self S hnd, snd_of_pair_map]
    have hget : pyGet scores ((n : Int) - 1) = some (scores.getD (n - 1) 0) := by
      unfold pyGet
      rw [if_pos (by omega)]
      rw [show ((n : Int) - 1).toNat = n - 1 by omega]
      exact get?_eq_some_getD scores (n - 1) (by omega)
    rw [hget]
    show some (((S.map (fun k => (k, score k))).filter
        (fun kv => scores.getD (n - 1) 0 ≤ kv.2)).map Prod.fst) =
      some (S.filter (fun q => scores.getD (n - 1) 0 ≤ score q))
    congr 1
    exact pair_filter_map S score (fun x => decide (scores.getD (n - 1) 0 ≤ x))
  · have hcount : (S.filter (fun q => scores.getD (n - 1) 0 ≤ score q)).length =
        S.countP (fun q => decide (scores.getD (n - 1) 0 ≤ score q)) :=
      (List.countP_eq_length_filter _ _).symm
    have hmapcount : S.countP (fun q => decide (scores.getD (n - 1) 0 ≤ score q)) =
        (S.map score).countP (fun x => decide (scores.getD (n - 1) 0 ≤ x)) :=
      (List.countP_map (fun x => decide (scores.getD (n - 1) 0 ≤ x)) score S).symm
    have hpermcount : (S.map score).countP (fun x => decide (scores.getD (n - 1) 0 ≤ x)) =
        scores.countP (fun x => decide (scores.getD (n - 1) 0 ≤ x)) :=
      ((sortDesc_perm (S.map score)).countP_eq _).symm
    have hge := countP_ge_of_sorted_desc scores (sortDesc_sorted _) n hn1 (by omega)
    rw [hcount, hmapcount, hpermcount]
    exact hge

/-- Witness for `trim_keeps_ties`: three distinct candidates, `n = 2`. -/
theorem trim_keeps_ties_witness :
    trim [['A'], ['C'], ['A', 'A']] [71, 142] 2 [('A', 71), ('C', 103)] =
      some (([['A'], ['C'], ['A', 'A']] : List (List Char)).filter (fun q =>
        (sortDesc (([['A'], ['C'], ['A', 'A']] : List (List Char)).map
          (fun q' => cyclopeptide_scoring q' [71, 142] false [('A', 71), ('C', 103)]))).getD
            (2 - 1) 0 ≤
          cyclopeptide_scoring q [71, 142] false [('A', 71), ('C', 103)])) ∧
    2 ≤ (([['A'], ['C'], ['A', 'A']] : List (List Char)).filter (fun q =>
        (sortDesc (([['A'], ['C'], ['A', 'A']] : List (List Char)).map
          (fun q' => cyclopeptide_scoring q' [71, 142] false [('A', 71), ('C', 103)]))).getD
            (2 - 1) 0 ≤
          cyclopeptide_scoring q [71, 142] false [('A', 71), ('C', 103)])).length :=
  trim_keeps_ties [['A'], ['C'], ['A', 'A']] [71, 142] 2 [('A', 71), ('C', 103)]
    (by decide) (by decide) (by decide)

/-! ### The per-round candidate scan (C7, C10) -/

lemma scan_step_cases (spectrum : List Nat) (maxS : Nat) (t : List (Char × Nat))
    (st : ScanState) (p : List Char) :
    ((scan_step spectrum maxS t st p).leader = st.leader ∧
      (scan_step spectrum maxS t st p).leaderScore = st.leaderScore) ∨
    ((scan_step spectrum maxS t st p).leader = p ∧
      peptide_mass p t = maxS ∧
      (scan_step spectrum maxS t st p).leaderScore =
        cyclopeptide_scoring p spectrum true t ∧
      st.leaderScore < (scan_step spectrum maxS t st p).leaderScore) := by
  unfold scan_step
  by_cases h1 : peptide_mass p t = maxS
  · rw [if_pos h1]
    by_cases h2 : st.leaderScore < cyclopeptide_scoring p spectrum true t
    · rw [if_pos h2]
      exact Or.inr ⟨rfl, h1, rfl, h2⟩
    · rw [if_neg h2]
      exact Or.inl ⟨rfl, rfl⟩
  · rw [if_neg h1]
    by_cases h3 : maxS < peptide_mass p t
    · rw [if_pos h3]
      exact Or.inl ⟨rfl, rfl⟩
    · rw [if_neg h3]
      exact Or.inl ⟨rfl, rfl⟩

lemma scan_fold_leader (spectrum : List Nat) (maxS : Nat) (t : List (Char × Nat)) :
    ∀ (board : List (List Char)) (st : ScanState),
      ((board.foldl (scan_step spectrum maxS t) st).leader = st.leader ∧
        (board.foldl (scan_step spectrum maxS t) st).leaderScore = st.leaderScore) ∨
      ((board.foldl (scan_step spectrum maxS t) st).leader ∈ board ∧
        peptide_mass (board.foldl (scan_step spectrum maxS t) st).leader t = maxS ∧
        (board.foldl (scan_step spectrum maxS t) st).leaderScore =
          cyclopeptide_scoring (board.foldl (scan_step spectrum maxS t) st).leader
            spectrum true t ∧
        st.leaderScore < (board.foldl (scan_step spectrum maxS t) st).leaderScore) := by
  intro board
  induction board with
  | nil => intro st; exact Or.inl ⟨rfl, rfl⟩
  | cons p board ih =>
    intro st
    rw [List.foldl_cons]
    rcases ih (scan_step spectrum maxS t st p) with ⟨hL, hS⟩ | ⟨hmem, hm, hsc, hlt⟩ <;>
      rcases scan_step_cases spectrum maxS t st p with ⟨hL', hS'⟩ | ⟨hL', hm', hsc', hlt'⟩
    · exact Or.inl ⟨hL.trans hL', hS.trans hS'⟩
    · refine Or.inr ⟨?_, ?_, ?_, ?_⟩
      · rw [hL, hL']; simp
      · rw [hL, hL']; exact hm'
      · rw [hL, hL', hS, hsc']
      · rw [hS]; exact hlt'
    · exact Or.inr ⟨by simp [hmem], hm, hsc, by rw [← hS']; exact hlt⟩
    · exact Or.inr ⟨by simp [hmem], hm, hsc, lt_trans hlt' hlt⟩

/-- C7: within a round of `leaderboard_peptide_sequencing` (the
`round_scan` fold the sequencer runs over the expanded leaderboard), if the
leader or its score changed at all, then the new leader is a scanned
candidate whose total mass equals the spectrum maximum, the new leader score
is that candidate's cyclic score, and it strictly exceeds the score held at
the start of the round. (In particular a candidate merely tying the current
leader's score never displaces it, so the first-found full-mass candidate at
a given score stays leader.) -/
theorem round_scan_replacement (spectrum : List Nat) (maxS : Nat) (t : List (Char × Nat))
    (leader : List Char) (leaderScore : Nat) (board : List (List Char))
    (hchange :
      (round_scan spectrum maxS t leader leaderScore board).leader ≠ leader ∨
      (round_scan spectrum maxS t leader leaderScore board).leaderScore ≠ leaderScore) :
    (round_scan spectrum maxS t leader leaderScore board).leader ∈ board ∧
    peptide_mass (round_scan spectrum maxS t leader leaderScore board).leader t = maxS ∧
    (round_scan spectrum maxS t leader leaderScore board).leaderScore =
      cyclopeptide_scoring (round_scan spectrum maxS t leader leaderScore board).leader
        spectrum true t ∧
    leaderScore < (round_scan spectrum maxS t leader leaderScore board).leaderScore := by
  rcases scan_fold_leader spectrum maxS t board ⟨leader, leaderScore, []⟩ with ⟨hL, hS⟩ | hr
  · rcases hchange with hc | hc
    · exact absurd hL hc
    · exact absurd hS hc
  · exact hr

/-- Witness for `round_scan_replacement`: the single candidate `"A"` at the
spectrum maximum 71 replaces the empty leader. -/
theorem round_scan_replacement_witness :
    (round_scan [71] 71 [('A', 71)] [] 0 [['A']]).leader ∈ [['A']] ∧
    peptide_mass (round_scan [71] 71 [('A', 71)] [] 0 [['A']]).leader [('A', 71)] = 71 ∧
    (round_scan [71] 71 [('A', 71)] [] 0 [['A']]).leaderScore =
      cyclopeptide_scoring (round_scan [71] 71 [('A', 71)] [] 0 [['A']]).leader
        [71] true [('A', 71)] ∧
    0 < (round_scan [71] 71 [('A', 71)] [] 0 [['A']]).leaderScore :=
  round_scan_replacement [71] 71 [('A', 71)] [] 0 [['A']] (Or.inl (by decide))

lemma scan_fold_toRemove (spectrum : List Nat) (maxS : Nat) (t : List (Char × Nat)) :
    ∀ (board : List (List Char)) (st : ScanState),
      (board.foldl (scan_step spectrum maxS t) st).toRemove =
        st.toRemove ++ board.filter (fun q => maxS < peptide_mass q t) := by
  intro board
  induction board with
  | nil => intro st; simp
  | cons p board ih =>
    intro st
    rw [List.foldl_cons, ih, List.filter_cons]
    by_cases h1 : peptide_mass p t = maxS
    · have hstep : (scan_step spectrum maxS t st p).toRemove = st.toRemove := by
        unfold scan_step
        rw [if_pos h1]
        by_cases h2 : st.leaderScore < cyclopeptide_scoring p spectrum true t
        · rw [if_pos h2]
        · rw [if_neg h2]
      rw [hstep, if_neg (by simp; omega)]
    · by_cases h3 : maxS < peptide_mass p t
      · have hstep : (scan_step spectrum maxS t st p).toRemove = st.toRemove ++ [p] := by
          unfold scan_step
          rw [if_neg h1, if_pos h3]
        rw [hstep, if_pos (by simpa using h3), List.append_assoc, List.singleton_append]
      · have hstep : (scan_step spectrum maxS t st p).toRemove = st.toRemove := by
          unfold scan_step
          rw [if_neg h1, if_neg h3]
        rw [hstep, if_neg (by simpa using h3)]

lemma erase_all_round_scan (spectrum : List Nat) (maxS : Nat) (t : List (Char × Nat))
    (leader : List Char) (leaderScore : Nat) (board : List (List Char))
    (hnd : board.Nodup) :
    erase_all board (round_scan spectrum maxS t leader leaderScore board).toRemove =
      board.filter (fun q => peptide_mass q t ≤ maxS) := by
  have htr : (round_scan spectrum maxS t leader leaderScore board).toRemove =
      board.filter (fun q => maxS < peptide_mass q t) := by
    unfold round_scan
    rw [scan_fold_toRemove]
    rfl
  have hdiff : erase_all board (round_scan spectrum maxS t leader leaderScore board).toRemove =
      board.diff (board.filter (fun q => maxS < peptide_mass q t)) := by
    rw [htr]
    exact (List.diff_eq_foldl board _).symm
  have hfilter : board.diff (board.filter (fun q => maxS < peptide_mass q t)) =
      board.filter (fun q => peptide_mass q t ≤ maxS) := by
    rw [hnd.diff_eq_filter]
    refine List.filter_congr (fun q hq => ?_)
    by_cases hqle : peptide_mass q t ≤ maxS
    · simp [hqle, List.mem_filter]
    · simp [hqle, List.mem_filter, hq]
  exact hdiff.trans hfilter

/-- C10 counterexample: a full-mass candidate is not always expanded again
in the following round — trim may drop it. On the run of
`leaderboard_peptide_sequencing` with spectrum `[0,57,57,114,137]`, `n = 1`
and table `{A:57, B:80, C:137}`, round 1 (shown by the first three
conjuncts) leaves board `[A, C]` with leader `C` at score 2; in round 2 the
candidate `AB` has total mass `137 = max(spectrum)` and survives the mass
filter into the board `[AA, AB]` handed to trim, yet trim keeps only `AA`
(linear scores 4 vs 3), so `AB` is never expanded again. -/
theorem full_mass_not_reexpanded :
    (round_scan [0, 57, 57, 114, 137] 137 [('A', 57), ('B', 80), ('C', 137)] [] 0
      (expand [('A', 57), ('B', 80), ('C', 137)] [[]])).leader = ['C'] ∧
    (round_scan [0, 57, 57, 114, 137] 137 [('A', 57), ('B', 80), ('C', 137)] [] 0
      (expand [('A', 57), ('B', 80), ('C', 137)] [[]])).leaderScore = 2 ∧
    trim (erase_all (expand [('A', 57), ('B', 80), ('C', 137)] [[]])
        ((round_scan [0, 57, 57, 114, 137] 137 [('A', 57), ('B', 80), ('C', 137)] [] 0
          (expand [('A', 57), ('B', 80), ('C', 137)] [[]])).toRemove))
      [0, 57, 57, 114, 137] 1 [('A', 57), ('B', 80), ('C', 137)] = some [['A'], ['C']] ∧
    pymax [0, 57, 57, 114, 137] = some 137 ∧
    peptide_mass ['A', 'B'] [('A', 57), ('B', 80), ('C', 137)] = 137 ∧
    erase_all (expand [('A', 57), ('B', 80), ('C', 137)] [['A'], ['C']])
        ((round_scan [0, 57, 57, 114, 137] 137 [('A', 57), ('B', 80), ('C', 137)] ['C'] 2
          (expand [('A', 57), ('B', 80), ('C', 137)] [['A'], ['C']])).toRemove) =
      [['A', 'A'], ['A', 'B']] ∧
    trim [['A', 'A'], ['A', 'B']] [0, 57, 57, 114, 137] 1 [('A', 57), ('B', 80), ('C', 137)] =
      some [['A', 'A']] ∧
    ['A', 'B'] ∉ ([['A', 'A']] : List (List Char)) := by decide

/-- C10 amended: in a round's mass filter, only candidates whose mass
strictly exceeds the spectrum maximum are removed: the post-removal board is
exactly the expanded board filtered to masses `≤ maxS`, so a candidate at
exactly the maximum mass survives into the trim step. (Whether it is
expanded again in the following round is then decided by trim: it survives
only if its linear score reaches the trim threshold — see
`full_mass_not_reexpanded`.) -/
theorem mass_filter_keeps_full_mass (spectrum : List Nat) (maxS : Nat)
    (t : List (Char × Nat)) (leader : List Char) (leaderScore : Nat)
    (board : List (List Char)) (p : List Char)
    (hnd : board.Nodup) (hp : p ∈ board) (hm : peptide_mass p t = maxS) :
    erase_all board (round_scan spectrum maxS t leader leaderScore board).toRemove =
      board.filter (fun q => peptide_mass q t ≤ maxS) ∧
    p ∈ erase_all board (round_scan spectrum maxS t leader leaderScore board).toRemove := by
  have hmain := erase_all_round_scan spectrum maxS t leader leaderScore board hnd
  refine ⟨hmain, ?_⟩
  rw [hmain]
  exact List.mem_filter.2 ⟨hp, by simp [hm]⟩

/-- Witness for `mass_filter_keeps_full_mass`: on board `[["A"],["AA"]]`
with maximum 71, the candidate `"A"` (mass exactly 71) survives the filter. -/
theorem mass_filter_keeps_full_mass_witness :
    erase_all [['A'], ['A', 'A']]
        (round_scan [71] 71 [('A', 71)] [] 0 [['A'], ['A', 'A']]).toRemove =
      ([['A'], ['A', 'A']] : List (List Char)).filter
        (fun q => peptide_mass q [('A', 71)] ≤ 71) ∧
    ['A'] ∈ erase_all [['A'], ['A', 'A']]
        (round_scan [71] 71 [('A', 71)] [] 0 [['A'], ['A', 'A']]).toRemove :=
  mass_filter_keeps_full_mass [71] 71 [('A', 71)] [] 0 [['A'], ['A', 'A']] ['A']
    (by decide) (by decide) (by decide)

/-! ### Empty target spectrum (C8) -/

/-- C8: with an empty target spectrum and a non-empty residue table,
`leaderboard_peptide_sequencing` raises the `ValueError` from
`max(spectrum)` at the first scanned candidate instead of returning a
peptide. -/
theorem empty_spectrum_errors (n : Nat) (t : List (Char × Nat)) (fuel : Nat)
    (ht : t ≠ []) (hfuel : 1 ≤ fuel) :
    leaderboard_peptide_sequencing [] n t fuel = some (.error .valueError) := by
  obtain ⟨f, rfl⟩ : ∃ f, fuel = f + 1 := ⟨fuel - 1, by omega⟩
  cases t with
  | nil => exact absurd rfl ht
  | cons sm t' => rfl

/-- Witness for `empty_spectrum_errors` at a one-residue table. -/
theorem empty_spectrum_errors_witness :
    leaderboard_peptide_sequencing [] 5 [('G', 57)] 1 = some (.error .valueError) :=
  empty_spectrum_errors 5 [('G', 57)] 1 (by decide) (by decide)

/-! ### Termination of the sequencer (C9) -/

lemma pymax_eq_pyMaxD (l : List Nat) (h : l ≠ []) : pymax l = some (pyMaxD l) := by
  cases l with
  | nil => exact absurd rfl h
  | cons x xs =>
    unfold pymax pyMaxD
    rw [List.foldl_cons, Nat.zero_max]

lemma mem_expand (t : List (Char × Nat)) (board : List (List Char)) (q : List Char) :
    q ∈ expand t board ↔
      ∃ aa ∈ t.map Prod.fst, ∃ ele ∈ board, q = ele ++ [aa] := by
  unfold expand
  simp only [List.mem_flatMap, List.mem_map]
  constructor
  · rintro ⟨aa, haa, ele, hele, rfl⟩
    exact ⟨aa, haa, ele, hele, rfl⟩
  · rintro ⟨aa, haa, ele, hele, rfl⟩
    exact ⟨aa, haa, ele, hele, rfl⟩

lemma expand_nodup (t : List (Char × Nat)) (board : List (List Char))
    (hk : (t.map Prod.fst).Nodup) (hnd : board.Nodup) : (expand t board).Nodup := by
  unfold expand
  rw [List.nodup_flatMap]
  constructor
  · intro aa _
    exact hnd.map (fun a b h => List.append_cancel_right h)
  · refine hk.imp ?_
    intro aa bb hne x hx1 hx2
    obtain ⟨e1, he1, rfl⟩ := List.mem_map.1 hx1
    obtain ⟨e2, he2, heq⟩ := List.mem_map.1 hx2
    have h1 : (e2 ++ [bb]).getLast? = some bb := List.getLast?_concat e2
    rw [heq, List.getLast?_concat] at h1
    exact hne (Option.some.inj h1)

lemma trim_preserves (S : List (List Char)) (spectrum : List Nat) (n : Nat)
    (t : List (Char × Nat)) (hnd : S.Nodup) (hne : S ≠ []) :
    ∃ S2, trim S spectrum n t = some S2 ∧ S2.Nodup ∧ ∀ q ∈ S2, q ∈ S := by
  by_cases hlt : S.length < n
  · rw [trim_eq, if_pos hlt]
    exact ⟨S, rfl, hnd, fun q hq => hq⟩
  · rw [trim_eq, if_neg hlt, pyDedup_eq_self S hnd, snd_of_pair_map]
    have hlen1 : 1 ≤ S.length := List.length_pos.mpr hne
    set score : List Char → Nat := fun q => cyclopeptide_scoring q spectrum false t with hsc
    set scores := sortDesc (S.map score) with hss
    have hslen : scores.length = S.length := by
      rw [hss, (sortDesc_perm _).length_eq, List.length_map]
    have hget : ∃ m, pyGet scores ((n : Int) - 1) = some m := by
      rcases Nat.eq_zero_or_pos n with h0 | h1
      · subst h0
        refine ⟨scores.getD (scores.length - 1) 0, ?_⟩
        unfold pyGet
        rw [if_neg (by omega), if_pos (by omega)]
        rw [show (-(((0 : Nat) : Int) - 1)).toNat = 1 by omega]
        exact get?_eq_some_getD scores (scores.length - 1) (by omega)
      · refine ⟨scores.getD (n - 1) 0, ?_⟩
        unfold pyGet
        rw [if_pos (by omega)]
        rw [show ((n : Int) - 1).toNat = n - 1 by omega]
        exact get?_eq_some_getD scores (n - 1) (by omega)
    obtain ⟨m, hm⟩ := hget
    rw [hm]
    refine ⟨_, rfl, ?_, ?_⟩
    · rw [pair_filter_map S score (fun x => decide (m ≤ x))]
      exact hnd.filter _
    · intro q hq
      rw [pair_filter_map S score (fun x => decide (m ≤ x))] at hq
      exact List.mem_of_mem_filter hq

/-- One zeta-expanded unfolding of the positive-fuel loop body. -/
lemma sequencing_loop_succ_eq (spectrum : List Nat) (n : Nat) (t : List (Char × Nat))
    (fuel : Nat) (board : List (List Char)) (leader : List Char) (leaderScore : Nat) :
    sequencing_loop spectrum n t (fuel + 1) board leader leaderScore =
      if board.isEmpty then some (.ok leader)
      else if (expand t board).isEmpty then some (.ok leader)
      else
        match pymax spectrum with
        | none => some (.error .valueError)
        | some maxS =>
          if (erase_all (expand t board) ((round_scan spectrum maxS t leader leaderScore
              (expand t board)).toRemove)).isEmpty
          then some (.ok (round_scan spectrum maxS t leader leaderScore
              (expand t board)).leader)
          else
            match trim (erase_all (expand t board) ((round_scan spectrum maxS t leader
                leaderScore (expand t board)).toRemove)) spectrum n t with
            | none => some (.error .indexError)
            | some board2 =>
              sequencing_loop spectrum n t fuel board2
                (round_scan spectrum maxS t leader leaderScore (expand t board)).leader
                (round_scan spectrum maxS t leader leaderScore (expand t board)).leaderScore :=
  rfl

lemma sequencing_loop_succ_some (spectrum : List Nat) (n : Nat) (t : List (Char × Nat))
    (fuel : Nat) (board : List (List Char)) (leader : List Char) (leaderScore : Nat)
    (maxS : Nat) (hmax : pymax spectrum = some maxS)
    (hb : ¬ board.isEmpty = true) (he : ¬ (expand t board).isEmpty = true) :
    sequencing_loop spectrum n t (fuel + 1) board leader leaderScore =
      if (erase_all (expand t board) ((round_scan spectrum maxS t leader leaderScore
          (expand t board)).toRemove)).isEmpty
      then some (.ok (round_scan spectrum maxS t leader leaderScore (expand t board)).leader)
      else
        match trim (erase_all (expand t board) ((round_scan spectrum maxS t leader
            leaderScore (expand t board)).toRemove)) spectrum n t with
        | none => some (.error .indexError)
        | some board2 =>
          sequencing_loop spectrum n t fuel board2
            (round_scan spectrum maxS t leader leaderScore (expand t board)).leader
            (round_scan spectrum maxS t leader leaderScore (expand t board)).leaderScore := by
  rw [sequencing_loop_succ_eq, if_neg hb, if_neg he, hmax]

lemma sequencing_loop_no_fuel_out (spectrum : List Nat) (n : Nat) (t : List (Char × Nat))
    (maxS : Nat) (hmax : pymax spectrum = some maxS)
    (hk : (t.map Prod.fst).Nodup) (hpos : ∀ sm ∈ t, 0 < sm.2) :
    ∀ (fuel : Nat) (board : List (List Char)) (leader : List Char) (leaderScore : Nat),
      board.Nodup →
      (∀ p ∈ board, ∀ c ∈ p, c ∈ t.map Prod.fst) →
      (∀ p ∈ board, peptide_mass p t ≤ maxS) →
      (∀ p ∈ board, maxS + 1 < p.length + fuel) →
      ∃ lead, sequencing_loop spectrum n t fuel board leader leaderScore =
        some (.ok lead) := by
  intro fuel
  induction fuel with
  | zero =>
    intro board leader s hnd halpha hmass hfuel
    have hempty : board = [] := by
      cases board with
      | nil => rfl
      | cons p board' =>
        have h1 := hmass p (by simp)
        have h2 := hfuel p (by simp)
        have h3 := length_le_peptide_mass t p hpos (halpha p (by simp))
        omega
    subst hempty
    exact ⟨leader, rfl⟩
  | succ fuel ih =>
    intro board leader s hnd halpha hmass hfuel
    by_cases hb : board.isEmpty
    · exact ⟨leader, by rw [sequencing_loop_succ_eq, if_pos hb]⟩
    · by_cases he : (expand t board).isEmpty
      · exact ⟨leader, by rw [sequencing_loop_succ_eq, if_neg hb, if_pos he]⟩
      · have hexp_nodup : (expand t board).Nodup := expand_nodup t board hk hnd
        have hremeq := erase_all_round_scan spectrum maxS t leader s (expand t board) hexp_nodup
        rw [sequencing_loop_succ_some spectrum n t fuel board leader s maxS hmax hb he]
        by_cases hre : (erase_all (expand t board) ((round_scan spectrum maxS t leader s
            (expand t board)).toRemove)).isEmpty
        · exact ⟨_, by rw [if_pos hre]⟩
        · rw [if_neg hre]
          have hrnd : (erase_all (expand t board) ((round_scan spectrum maxS t leader s
              (expand t board)).toRemove)).Nodup := by
            rw [hremeq]
            exact hexp_nodup.filter _
          have hrne : erase_all (expand t board) ((round_scan spectrum maxS t leader s
              (expand t board)).toRemove) ≠ [] := by
            intro hcon
            rw [hcon] at hre
            exact hre rfl
          obtain ⟨board2, htrim, hb2nd, hb2sub⟩ :=
            trim_preserves _ spectrum n t hrnd hrne
          rw [htrim]
          have hb2props : ∀ q ∈ board2,
              (∀ c ∈ q, c ∈ t.map Prod.fst) ∧ peptide_mass q t ≤ maxS ∧
                maxS + 1 < q.length + fuel := by
            intro q hq
            have hqrem := hb2sub q hq
            rw [hremeq] at hqrem
            have hqexp : q ∈ expand t board := List.mem_of_mem_filter hqrem
            have hqmass : peptide_mass q t ≤ maxS := by
              have := List.mem_filter.1 hqrem
              simpa using this.2
            obtain ⟨aa, haa, ele, hele, rfl⟩ := (mem_expand t board q).1 hqexp
            refine ⟨?_, hqmass, ?_⟩
            · intro c hc
              rcases List.mem_append.1 hc with h | h
              · exact halpha ele hele c h
              · rcases List.mem_singleton.1 h with rfl
                exact haa
            · have := hfuel ele hele
              rw [List.length_append, List.length_singleton]
              omega
          obtain ⟨lead, hlead⟩ := ih board2 (round_scan spectrum maxS t leader s
              (expand t board)).leader (round_scan spectrum maxS t leader s
              (expand t board)).leaderScore hb2nd
            (fun q hq => (hb2props q hq).1)
            (fun q hq => (hb2props q hq).2.1)
            (fun q hq => (hb2props q hq).2.2)
          exact ⟨lead, hlead⟩

/-- C9: for a non-empty target spectrum and a (duplicate-free) non-empty
residue table with strictly positive masses, `leaderboard_peptide_sequencing`
terminates: with fuel `max(spectrum) + 2` (or more) the loop empties the
leaderboard after finitely many rounds — every surviving candidate's mass
eventually exceeds the spectrum's maximum — and the function returns the
leader peptide (no fuel exhaustion, no error). -/
theorem leaderboard_peptide_sequencing_terminates (spectrum : List Nat) (n : Nat)
    (t : List (Char × Nat)) (fuel : Nat) (hs : spectrum ≠ []) (ht : t ≠ [])
    (hk : (t.map Prod.fst).Nodup) (hpos : ∀ sm ∈ t, 0 < sm.2)
    (hfuel : pyMaxD spectrum + 2 ≤ (fuel : Nat)) :
    ∃ lead, leaderboard_peptide_sequencing spectrum n t fuel = some (.ok lead) := by
  have hmax := pymax_eq_pyMaxD spectrum hs
  refine sequencing_loop_no_fuel_out spectrum n t (pyMaxD spectrum) hmax hk hpos fuel
    [[]] [] 0 (by simp) ?_ ?_ ?_
  · intro p hp c hc
    rcases List.mem_singleton.1 hp with rfl
    cases hc
  · intro p hp
    rcases List.mem_singleton.1 hp with rfl
    rw [peptide_mass_nil]
    exact Nat.zero_le _
  · intro p hp
    rcases List.mem_singleton.1 hp with rfl
    simp only [List.length_nil]
    omega

/-- Witness for `leaderboard_peptide_sequencing_terminates`: spectrum `[71]`,
table `{A:71}`, fuel `73 = 71 + 2`. -/
theorem leaderboard_peptide_sequencing_terminates_witness :
    ∃ lead, leaderboard_peptide_sequencing [71] 1 [('A', 71)] 73 = some (.ok lead) :=
  leaderboard_peptide_sequencing_terminates [71] 1 [('A', 71)] 73
    (by decide) (by decide) (by decide) (by decide) (by decide)

end AntibioticsSeq
